import Mathlib

/-!
Shallow embedding of the jctl journal manager (src/jctl.py) and proofs
about its front-matter codec, entry matchers, interactive chooser, edit
session, and timestamp/filename fixup.

Text is modelled as `List Char` (Python `str`, one element per code
point).  Python string primitives used by the source (`str.find`,
slicing, `str.strip`, `str.split`, substring membership `in`,
`os.path.splitext`, `int(...)`, `sorted(..., reverse=True)`) are
embedded as executable Lean functions below, each with a comment naming
the Python operation it models.
-/

/-- Text, Python `str`, as a list of characters. -/
abbrev Str := List Char

/-- The newline character. -/
def nlChar : Char := '\n'

/-- `"---"`, the front-matter separator line (JournalCtl.FRONT_MATTER_SEP). -/
def fmSepStr : Str := ['-', '-', '-']

/-- `"\n---\n"` (JournalCtl.FRONT_MATTER_END). -/
def fmEndStr : Str := nlChar :: fmSepStr ++ [nlChar]

/-- `": "` (JournalCtl.FRONT_MATTER_VALUE_SEP). -/
def colonSp : Str := [':', ' ']

/-- `"None"`: what Python `"{}: {}".format(var, None)` prints for an
absent value. -/
def noneStr : Str := ['N', 'o', 'n', 'e']

/-- Locate the first occurrence of `pat` in `s`, returning the text
before the occurrence and the text after it.  `breakSub pat s = some
(pre, post)` means `s = pre ++ pat ++ post` and `pat` occurs nowhere
earlier.  This models Python `s.find(pat)` (the index of the occurrence
is `pre.length`) together with the slices the source takes around it. -/
def breakSub (pat : Str) : Str → Option (Str × Str)
  | [] => if pat.isPrefixOf ([] : Str) then some ([], []) else none
  | c :: t =>
    if pat.isPrefixOf (c :: t) then some ([], (c :: t).drop pat.length)
    else (breakSub pat t).map (fun p => (c :: p.1, p.2))

/-- Python substring test `pat in s`. -/
def containsSub (pat s : Str) : Bool := (breakSub pat s).isSome

/-- Python `s.split(pat, 1)`: split on the first occurrence only. -/
def pySplit1 (pat s : Str) : List Str :=
  match breakSub pat s with
  | some (a, b) => [a, b]
  | none => [s]

/-- Python `str.isspace` for the ASCII whitespace characters stripped by
`str.strip()`. -/
def pyIsSpace (c : Char) : Bool :=
  c = ' ' || c = '\t' || c = '\n' || c = '\r' || c = '\x0b' || c = '\x0c'

/-- Python `s.strip()`: drop leading and trailing whitespace. -/
def pyStrip (s : Str) : Str :=
  ((s.dropWhile pyIsSpace).reverse.dropWhile pyIsSpace).reverse

/-- Python `s.split(sep)` for a single-character separator `c`
(unbounded split; `"".split(c) = [""]`). -/
def splitChar (c : Char) : Str → List Str
  | [] => [[]]
  | a :: t =>
    if a = c then [] :: splitChar c t
    else
      match splitChar c t with
      | h :: r => (a :: h) :: r
      | [] => [[a]]

/-- Python string comparison `a <= b` (lexicographic by code point). -/
def pyLe : Str → Str → Bool
  | [], _ => true
  | _ :: _, [] => false
  | a :: s, b :: t => if a = b then pyLe s t else decide (a.toNat < b.toNat)

/-- Python `sorted(l, reverse=True)` on strings: stable sort, largest
first. -/
def sortDesc (l : List Str) : List Str := l.mergeSort (fun a b => pyLe b a)

/-- One parsed front-matter element, as built by
`JournalCtl.get_front_matter`: `none` is a blank-line marker; `some (k,
some v)` is a `key: value` pair; `some (k, none)` is a line with no
`": "` separator (a variable with no value). -/
abbrev FMEntry := Option (Str × Option Str)

/-- The per-line branch of `get_front_matter` (src/jctl.py lines
452-470): split the line on the first `": "`; two parts give a pair, an
empty single part a blank marker, a non-empty single part a pair with
absent value; the remaining branches signal front-matter corruption. -/
def parseLine (l : Str) : Except String FMEntry :=
  match pySplit1 colonSp l with
  | [k, v] => .ok (some (k, some v))
  | [x] => if x = [] then .ok none else .ok (some (x, none))
  | [] => .error "unknown error in front matter"
  | _ => .error "somehow split front matter line into >2 parts"

/-- The `for line in raw_front_matter` loop of `get_front_matter`:
parse each line in order; an error aborts (the source calls
`self.error`, which exits the process). -/
def parseLines : List Str → Except String (List FMEntry)
  | [] => .ok []
  | l :: rest =>
    match parseLine l with
    | .error e => .error e
    | .ok a =>
      match parseLines rest with
      | .error e => .error e
      | .ok as => .ok (a :: as)

/-- `text[4:end]` where `end = text.find("\n---\n")` (src/jctl.py lines
446-449); on `find = -1` Python's slice `text[4:-1]` results. -/
def fmRegion (text : Str) : Str :=
  match breakSub fmEndStr text with
  | some (before, _) => before.drop 4
  | none => (text.take (text.length - 1)).drop 4

/-- `JournalCtl.get_front_matter` (src/jctl.py lines 442-472), acting on
the entry file's text. -/
def get_front_matter (text : Str) : Except String (List FMEntry) :=
  parseLines (splitChar nlChar (pyStrip (fmRegion text)))

/-- `JournalCtl.get_entry_text` (src/jctl.py lines 474-480): everything
after the first `"\n---\n"`; on `find = -1` Python computes
`text[-1+5:] = text[4:]`. -/
def get_entry_text (text : Str) : Str :=
  match breakSub fmEndStr text with
  | some (_, after) => after
  | none => text.drop 4

/-- The line `fix_entry` emits for one front-matter element
(`"{}: {}".format(var, value)`; an absent value prints as `None`),
without the trailing newline.  A blank marker contributes an empty
line. -/
def lineOf : FMEntry → Str
  | none => []
  | some (k, some v) => k ++ colonSp ++ v
  | some (k, none) => k ++ colonSp ++ noneStr

/-- One element's contribution to `new_text` in `fix_entry` (lines
500-519): its line plus the newline. -/
def entryChunk (e : FMEntry) : Str := lineOf e ++ [nlChar]

/-- The `new_text` built by `fix_entry` (src/jctl.py lines 498-521) from
an already-updated front-matter list and the entry body: this is the
codec's serializer. -/
def serializeEntry (fm : List FMEntry) (body : Str) : Str :=
  fmSepStr ++ [nlChar] ++ (fm.map entryChunk).flatten ++ fmSepStr ++ [nlChar] ++ body

/-- The key `"date"`. -/
def dateKey : Str := ['d', 'a', 't', 'e']

/-- The key `"title"`. -/
def titleKey : Str := ['t', 'i', 't', 'l', 'e']

/-- The value update in `fix_entry`'s loop (lines 508-515): when a date
argument was supplied, a pair whose key is `date` has its value replaced
by it; every other element is emitted unchanged. -/
def updDate (d : Option Str) : FMEntry → FMEntry
  | none => none
  | some (k, v) =>
    if k = dateKey then
      match d with
      | some dv => some (k, some dv)
      | none => some (k, v)
    else some (k, v)

/-- The `entry_title` read by `fix_entry`'s loop (lines 516-518): the
value of the last `title` pair, if any; `none` when no `title` pair
exists (the Python variable is then unbound). -/
def lastTitle (fm : List FMEntry) : Option (Option Str) :=
  fm.foldl
    (fun acc e =>
      match e with
      | some (k, v) => if k = titleKey then some v else acc
      | none => acc)
    none

deriving instance DecidableEq for Except

/-- Python exceptions `fix_entry` can raise after writing the file:
`AttributeError` from `None.split(" ")` when no date argument was given,
`NameError` from the unbound `entry_title` when no `title` pair exists,
and `TypeError` from passing a `None` title to `subprocess.Popen`. -/
inductive PyError where
  | attributeError
  | nameError
  | typeError
deriving DecidableEq, Repr

/-- Outcome of `fix_entry`: the text written over the entry file (the
write at lines 523-524 happens before the filename check), then either
an exception raised by the check or the final entry name together with
whether the file was renamed (lines 526-532). -/
structure FixResult where
  written : Str
  outcome : Except PyError (Str × Bool)
deriving DecidableEq, Repr

/-- `JournalCtl.fix_entry` (src/jctl.py lines 486-532) acting on the
entry's current file text.  `slug` stands for the external `ezstring`
collaborator as invoked through `get_shell` (its stripped stdout);
`entry` is the entry name, `date` the optional replacement date.  The
outer `Except String` is the front-matter corruption exit
(`get_front_matter` calls `self.error`), shown below to be
unreachable. -/
def fix_entry (slug : Str → Str) (entry : Str) (text : Str)
    (date : Option Str) : Except String FixResult :=
  match get_front_matter text with
  | .error e => .error e
  | .ok fm =>
    let body := get_entry_text text
    let newText := serializeEntry (fm.map (updDate date)) body
    let outcome : Except PyError (Str × Bool) :=
      match date with
      | none => .error .attributeError
      | some d =>
        match lastTitle fm with
        | none => .error .nameError
        | some none => .error .typeError
        | some (some t) =>
          let check := d.takeWhile (fun c => !(c = ' ')) ++ '-' :: slug t
          if entry = check then .ok (check, false) else .ok (check, true)
    .ok ⟨newText, outcome⟩

/-- `JournalCtl.update_time` (src/jctl.py lines 482-484): `fix_entry`
with the current time `time.strftime("%F %T")`, passed in as `now`. -/
def update_time (slug : Str → Str) (entry : Str) (text : Str)
    (now : Str) : Except String FixResult :=
  fix_entry slug entry text (some now)

/-- `JournalCtl.find_entries` (src/jctl.py lines 267-286).  `entries`
stands for the result of the `self.get_entries()` call.  An entry
matches when every keyword is a substring of its name; no matches give
`[]`; otherwise the matches are returned sorted descending. -/
def find_entries (entries keywords : List Str) : List Str :=
  let ms := entries.filter (fun e => keywords.all (fun w => containsSub w e))
  if ms.isEmpty then [] else sortDesc ms

/-- Python `s.lower()` (ASCII model). -/
def pyLower (s : Str) : Str := s.map Char.toLower

/-- `JournalCtl.search_entries` (src/jctl.py lines 345-371).  `entries`
stands for `self.get_entries()` and `textOf` for
`self.get_text_of(entry)`.  Keywords and text are compared
lowercased. -/
def search_entries (entries : List Str) (textOf : Str → Str)
    (keywords : List Str) : List Str :=
  let ms := entries.filter
    (fun e => keywords.all (fun w => containsSub (pyLower w) (pyLower (textOf e))))
  if ms.isEmpty then [] else sortDesc ms

/-- `os.path.splitext(p)[0]` for a basename (no path separators):
everything before the last dot, except that a name whose characters
before that dot are all dots (such as `".bashrc"`) is returned whole. -/
def pySplitextRoot (p : Str) : Str :=
  let r := p.reverse
  let extRev := r.takeWhile (fun c => !(c = '.'))
  if extRev.length = r.length then p
  else
    let root := (r.drop (extRev.length + 1)).reverse
    if root.all (fun c => c = '.') then p else root

/-- `JournalCtl.get_entries` (src/jctl.py lines 432-440): strip the
extension from every file listed in the journal directory.  `files`
stands for `os.listdir(self.journal_dir)`. -/
def get_entries (files : List Str) : List Str := files.map pySplitextRoot

/-- One operator action at the `input(" > ")` call of
`interactive_number_chooser`: an interrupt signal, end-of-input, or an
entered line. -/
inductive InEv where
  | intr
  | eofEv
  | line (s : Str)
deriving DecidableEq, Repr

/-- Digit run of a Python integer literal after the first digit: digits
with single underscores allowed between digits. -/
def pyDigitsCore : Str → Nat → Option Nat
  | [], acc => some acc
  | '_' :: c :: r, acc =>
    if c.isDigit then pyDigitsCore r (acc * 10 + (c.toNat - 48)) else none
  | ['_'], _ => none
  | c :: r, acc =>
    if c.isDigit then pyDigitsCore r (acc * 10 + (c.toNat - 48)) else none

/-- Digit run of a Python integer literal: non-empty, starts with a
digit. -/
def pyDigits : Str → Option Nat
  | [] => none
  | c :: r => if c.isDigit then pyDigitsCore r (c.toNat - 48) else none

/-- Python `int(s)` for ASCII input: optional surrounding whitespace, an
optional sign, then a digit run; `none` models the `ValueError`. -/
def pyParseInt (s : Str) : Option Int :=
  match pyStrip s with
  | '+' :: r => (pyDigits r).map (fun n => (n : Int))
  | '-' :: r => (pyDigits r).map (fun n => -(n : Int))
  | r => (pyDigits r).map (fun n => (n : Int))

/-- `"q"`. -/
def qStr : Str := ['q']

/-- `"quit"`. -/
def quitStr : Str := ['q', 'u', 'i', 't']

/-- The `while not valid_input` loop of `interactive_number_chooser`
(src/jctl.py lines 237-265) over a queue of operator actions; an
exhausted queue raises `EOFError` at `input`, returning -1 like an
explicit end-of-input. -/
def chooser_loop (n : Nat) : List InEv → Int
  | [] => -1
  | .intr :: _ => -1
  | .eofEv :: _ => -1
  | .line s :: rest =>
    if s = [] || s = quitStr || s = qStr then -1
    else
      match pyParseInt s with
      | none => chooser_loop n rest
      | some k =>
        if 0 ≤ k - 1 ∧ k - 1 < (n : Int) then k - 1 else chooser_loop n rest

/-- `JournalCtl.interactive_number_chooser` (src/jctl.py lines 210-265):
the returned index, paired with whether the numbered prompt was shown
(a single option returns index 0 before any output). -/
def interactive_number_chooser (options : List Str) (ins : List InEv) :
    Int × Bool :=
  if options.length = 1 then (0, false)
  else (chooser_loop options.length ins, true)

/-- A file as `filecmp.cmp` observes it: its bytes and its stat
signature beyond the size, reduced to the modification time (both files
compared by `edit_entry` are regular files, so the file-type component
of the signature always agrees). -/
structure PyFile where
  content : Str
  mtime : Nat
deriving DecidableEq, Repr

/-- `filecmp.cmp(f1, f2)` with the default `shallow=True`: equal size
and mtime short-circuit to `True` without reading; differing sizes give
`False`; otherwise the contents are compared byte for byte. -/
def cmpShallow (f1 f2 : PyFile) : Bool :=
  if f1.content.length = f2.content.length ∧ f1.mtime = f2.mtime then true
  else if f1.content.length = f2.content.length then decide (f1.content = f2.content)
  else false

/-- `JournalCtl.edit_entry` (src/jctl.py lines 382-401) after the editor
returned, given the original entry file and the scratch file as the
editor left it: when `filecmp.cmp` reports them equal nothing happens;
otherwise the scratch file is moved over the entry file.  Returns the
entry file's final state and whether the timestamp prompt was
offered. -/
def edit_entry (orig postEdit : PyFile) : PyFile × Bool :=
  if cmpShallow orig postEdit then (orig, false)
  else (postEdit, true)

/-! ### Lines joined by newlines -/

/-- Lines joined by single newlines (no trailing newline). -/
def interNl : List Str → Str
  | [] => []
  | [l] => l
  | l :: l2 :: rest => l ++ nlChar :: interNl (l2 :: rest)


/-- A front-matter line survives the round trip through
`fix_entry`/`get_front_matter` when it contains no newline and is not the
separator line `---`. -/
def goodLineP (l : Str) : Prop := nlChar ∉ l ∧ l ≠ fmSepStr


/-- Executable well-formedness of one front-matter element for the
round trip: blank markers qualify; a pair qualifies when it has a
present value, its key and value contain no newline, and its key does
not contain the `": "` separator. -/
def goodEntryB : FMEntry → Bool
  | none => true
  | some (_, none) => false
  | some (k, some v) =>
    decide (nlChar ∉ k) && decide (nlChar ∉ v) && (breakSub colonSp k).isNone

/-- The serialized line of an element has its first character
non-whitespace (used for the first element, whose line meets the
`strip()` boundary). -/
def entryHeadOK : FMEntry → Bool
  | some (k, some v) => !pyIsSpace ((k ++ colonSp ++ v).headI)
  | _ => false

/-- The serialized line of an element has its last character
non-whitespace (used for the last element). -/
def entryLastOK : FMEntry → Bool
  | some (k, some v) => !pyIsSpace ((k ++ colonSp ++ v).reverse.headI)
  | _ => false


/-! ### Helper lemmas about `breakSub` (first-occurrence search) -/

theorem breakSub_of_isPrefixOf (pat s : Str) (h : pat.isPrefixOf s = true) :
    breakSub pat s = some ([], s.drop pat.length) := by
  cases s with
  | nil =>
    have hp : pat = [] := by
      have := List.isPrefixOf_iff_prefix.mp h
      simpa using this.length_le
    subst hp; rfl
  | cons c t => simp [breakSub, h]

theorem breakSub_cons_of_neg (pat : Str) (c : Char) (t : Str)
    (h : pat.isPrefixOf (c :: t) = false) :
    breakSub pat (c :: t) = (breakSub pat t).map (fun p => (c :: p.1, p.2)) := by
  simp [breakSub, h]

theorem breakSub_pat_append (pat s : Str) :
    breakSub pat (pat ++ s) = some ([], s) := by
  rw [breakSub_of_isPrefixOf pat (pat ++ s)
    (List.isPrefixOf_iff_prefix.mpr (List.prefix_append pat s))]
  rw [List.drop_left]

theorem breakSub_skip (p0 : Char) (pr l s : Str) (h : p0 ∉ l) :
    breakSub (p0 :: pr) (l ++ s) =
      (breakSub (p0 :: pr) s).map (fun q => (l ++ q.1, q.2)) := by
  induction l with
  | nil => simp
  | cons c l ih =>
    have hc : ¬ (p0 = c) := fun hpc => h (hpc ▸ List.mem_cons_self c l)
    have hpre : (p0 :: pr).isPrefixOf (c :: (l ++ s)) = false := by
      rw [Bool.eq_false_iff]
      intro hp
      exact hc (List.cons_prefix_cons.mp (List.isPrefixOf_iff_prefix.mp hp)).1
    have hl : p0 ∉ l := fun hm => h (List.mem_cons_of_mem c hm)
    rw [List.cons_append, breakSub_cons_of_neg _ _ _ hpre, ih hl,
      Option.map_map]
    rfl

theorem breakSub_none_cons (pat : Str) (c : Char) (t : Str)
    (h : breakSub pat (c :: t) = none) :
    pat.isPrefixOf (c :: t) = false ∧ breakSub pat t = none := by
  by_cases hp : pat.isPrefixOf (c :: t) = true
  · rw [breakSub_of_isPrefixOf _ _ hp] at h; cases h
  · refine ⟨Bool.eq_false_iff.mpr hp, ?_⟩
    rw [breakSub_cons_of_neg _ _ _ (Bool.eq_false_iff.mpr hp)] at h
    exact Option.map_eq_none'.mp h

/-- Splitting `key ++ ": " ++ value` on the first `": "` recovers the key
and value, provided `": "` does not occur inside the key. -/
theorem breakSub_colonSp_key (k v : Str) (h : breakSub colonSp k = none) :
    breakSub colonSp (k ++ colonSp ++ v) = some (k, v) := by
  induction k with
  | nil => simpa using breakSub_pat_append colonSp v
  | cons c k' ih =>
    obtain ⟨hpre, hrest⟩ := breakSub_none_cons _ _ _ h
    have hpre2 : colonSp.isPrefixOf (c :: (k' ++ colonSp ++ v)) = false := by
      cases k' with
      | nil =>
        simp only [colonSp, List.nil_append, List.cons_append]
        rw [Bool.eq_false_iff]
        intro hp
        have := List.isPrefixOf_iff_prefix.mp hp
        rw [List.cons_prefix_cons] at this
        have h2 := List.cons_prefix_cons.mp this.2
        exact absurd h2.1 (by decide)
      | cons d k'' =>
        simp only [colonSp, List.isPrefixOf, List.cons_append] at hpre ⊢
        simpa using hpre
    rw [List.cons_append, List.cons_append,
      breakSub_cons_of_neg _ _ _ hpre2, ih hrest]
    rfl

/-! ### A well-formedness predicate on front-matter lines -/

/-- The closing separator `"---\n"` cannot start inside a good line
followed by a newline. -/
theorem not_isPrefixOf_fmSep (l w : Str) (h1 : nlChar ∉ l) (h2 : l ≠ fmSepStr) :
    (fmSepStr ++ [nlChar]).isPrefixOf (l ++ nlChar :: w) = false := by
  rw [Bool.eq_false_iff]
  intro hp
  have h := List.isPrefixOf_iff_prefix.mp hp
  match l with
  | [] =>
    simp only [List.nil_append, fmSepStr, nlChar, List.cons_append] at h
    exact absurd (List.cons_prefix_cons.mp h).1 (by decide)
  | [c] =>
    simp only [fmSepStr, nlChar, List.cons_append, List.singleton_append] at h
    rw [List.cons_prefix_cons] at h
    have h2 := List.cons_prefix_cons.mp h.2
    exact absurd h2.1 (by decide)
  | [c, d] =>
    simp only [fmSepStr, nlChar, List.cons_append, List.nil_append] at h
    rw [List.cons_prefix_cons] at h
    rw [List.cons_prefix_cons] at h
    obtain ⟨-, -, h3⟩ := h
    rw [List.cons_prefix_cons] at h3
    exact absurd h3.1 (by decide)
  | [c, d, e] =>
    simp only [fmSepStr, nlChar, List.cons_append, List.nil_append] at h
    rw [List.cons_prefix_cons] at h
    obtain ⟨hc, h⟩ := h
    rw [List.cons_prefix_cons] at h
    obtain ⟨hd, h⟩ := h
    rw [List.cons_prefix_cons] at h
    obtain ⟨he, -⟩ := h
    exact h2 (by simp [fmSepStr, ← hc, ← hd, ← he])
  | c :: d :: e :: f :: r =>
    simp only [fmSepStr, nlChar, List.cons_append, List.nil_append] at h
    rw [List.cons_prefix_cons] at h
    obtain ⟨-, h⟩ := h
    rw [List.cons_prefix_cons] at h
    obtain ⟨-, h⟩ := h
    rw [List.cons_prefix_cons] at h
    obtain ⟨-, h⟩ := h
    rw [List.cons_prefix_cons] at h
    apply h1
    show '\n' ∈ c :: d :: e :: f :: r
    rw [h.1]
    exact List.mem_cons_of_mem _ (List.mem_cons_of_mem _
      (List.mem_cons_of_mem _ (List.mem_cons_self _ _)))

theorem interNl_cons_cons (l l2 : Str) (rest : List Str) :
    interNl (l :: l2 :: rest) = l ++ nlChar :: interNl (l2 :: rest) := rfl

/-- The front-matter block written by `fix_entry` is the newline-joined
lines plus a final newline. -/
theorem flatten_chunks (ls : List Str) (h : ls ≠ []) :
    (ls.map (fun l => l ++ [nlChar])).flatten = interNl ls ++ [nlChar] := by
  induction ls with
  | nil => exact absurd rfl h
  | cons l rest ih =>
    cases rest with
    | nil => simp [interNl]
    | cons l2 rest' =>
      rw [List.map_cons, List.flatten_cons, ih (by simp), interNl_cons_cons]
      simp

/-- Scanning for `"\n---\n"` runs past every good line and stops at the
closing separator. -/
theorem breakSub_fmEnd_scan (lines : List Str) (body : Str) (hne : lines ≠ [])
    (hg : ∀ l ∈ lines, goodLineP l) :
    breakSub fmEndStr (nlChar :: (interNl lines ++ fmEndStr ++ body)) =
      some (nlChar :: interNl lines, body) := by
  induction lines with
  | nil => exact absurd rfl hne
  | cons l rest ih =>
    obtain ⟨hnl, hsep⟩ := hg l (List.mem_cons_self l rest)
    have hpre : fmEndStr.isPrefixOf
        (nlChar :: (interNl (l :: rest) ++ fmEndStr ++ body)) = false := by
      rw [Bool.eq_false_iff]
      intro hp
      have h := List.isPrefixOf_iff_prefix.mp hp
      rw [show fmEndStr = nlChar :: (fmSepStr ++ [nlChar]) from rfl,
        List.cons_prefix_cons] at h
      have h2 := h.2
      have hshape : ∃ w,
          interNl (l :: rest) ++ nlChar :: (fmSepStr ++ [nlChar]) ++ body =
            l ++ nlChar :: w := by
        cases rest with
        | nil =>
          exact ⟨fmSepStr ++ [nlChar] ++ body, by
            simp [interNl, List.append_assoc]⟩
        | cons l2 rest' =>
          exact ⟨interNl (l2 :: rest') ++ fmEndStr ++ body, by
            rw [interNl_cons_cons]; simp [fmEndStr, List.append_assoc]⟩
      obtain ⟨w, hw⟩ := hshape
      rw [hw] at h2
      have := not_isPrefixOf_fmSep l w hnl hsep
      rw [Bool.eq_false_iff] at this
      exact this (List.isPrefixOf_iff_prefix.mpr h2)
    rw [breakSub_cons_of_neg _ _ _ hpre]
    cases rest with
    | nil =>
      have hstep : breakSub fmEndStr (interNl [l] ++ fmEndStr ++ body) =
          some (l, body) := by
        have : interNl [l] ++ fmEndStr ++ body = l ++ (fmEndStr ++ body) := by
          simp [interNl, List.append_assoc]
        rw [this, show fmEndStr = nlChar :: (fmSepStr ++ [nlChar]) from rfl,
          breakSub_skip nlChar _ l _ hnl,
          ← show fmEndStr = nlChar :: (fmSepStr ++ [nlChar]) from rfl,
          breakSub_pat_append]
        simp
      rw [hstep]
      rfl
    | cons l2 rest' =>
      have hrest : ∀ x ∈ l2 :: rest', goodLineP x := fun x hx =>
        hg x (List.mem_cons_of_mem l hx)
      have hih := ih (by simp) hrest
      have hassoc : interNl (l :: l2 :: rest') ++ fmEndStr ++ body =
          l ++ (nlChar :: (interNl (l2 :: rest') ++ fmEndStr ++ body)) := by
        rw [interNl_cons_cons]; simp [fmEndStr, List.append_assoc]
      rw [hassoc, show fmEndStr = nlChar :: (fmSepStr ++ [nlChar]) from rfl,
        breakSub_skip nlChar _ l _ hnl,
        ← show fmEndStr = nlChar :: (fmSepStr ++ [nlChar]) from rfl, hih]
      rw [interNl_cons_cons]
      rfl

/-- Locating `"\n---\n"` in a serialized entry with good lines. -/
theorem breakSub_serializeEntry (fm : List FMEntry) (body : Str)
    (hne : fm ≠ [])
    (hg : ∀ l ∈ fm.map lineOf, goodLineP l) :
    breakSub fmEndStr (serializeEntry fm body) =
      some (fmSepStr ++ nlChar :: interNl (fm.map lineOf), body) := by
  have hlines : fm.map lineOf ≠ [] := by
    cases fm with
    | nil => exact absurd rfl hne
    | cons e rest => simp
  have hchunks : (fm.map entryChunk).flatten =
      interNl (fm.map lineOf) ++ [nlChar] := by
    have : fm.map entryChunk = (fm.map lineOf).map (fun l => l ++ [nlChar]) := by
      rw [List.map_map]; rfl
    rw [this, flatten_chunks _ hlines]
  have hassemble : serializeEntry fm body =
      fmSepStr ++ (nlChar :: (interNl (fm.map lineOf) ++ fmEndStr ++ body)) := by
    rw [serializeEntry, hchunks]
    simp [fmEndStr, List.append_assoc]
  rw [hassemble]
  have hd : nlChar ∉ fmSepStr := by decide
  rw [show fmEndStr = nlChar :: (fmSepStr ++ [nlChar]) from rfl,
    breakSub_skip nlChar _ fmSepStr _ hd,
    ← show fmEndStr = nlChar :: (fmSepStr ++ [nlChar]) from rfl,
    breakSub_fmEnd_scan _ body hlines hg]
  rfl

/-! ### Strip and split lemmas -/

theorem head?_eq_headI (l : Str) (h : l ≠ []) : l.head? = some l.headI := by
  cases l with
  | nil => exact absurd rfl h
  | cons c t => rfl

theorem getLast?_eq_reverse_headI (l : Str) (h : l ≠ []) :
    l.getLast? = some l.reverse.headI := by
  rw [← List.head?_reverse]
  exact head?_eq_headI l.reverse (by simpa using h)

theorem pyStrip_eq_self (s : Str)
    (hh : ∀ c, s.head? = some c → pyIsSpace c = false)
    (hl : ∀ c, s.getLast? = some c → pyIsSpace c = false) :
    pyStrip s = s := by
  have h1 : s.dropWhile pyIsSpace = s := by
    cases s with
    | nil => rfl
    | cons c t => rw [List.dropWhile_cons, hh c rfl]; simp
  rw [pyStrip, h1]
  have h2 : s.reverse.dropWhile pyIsSpace = s.reverse := by
    cases hr : s.reverse with
    | nil => rfl
    | cons c t =>
      have : s.getLast? = some c := by rw [← List.head?_reverse, hr]; rfl
      rw [List.dropWhile_cons, hl c this]; simp
  rw [h2, List.reverse_reverse]

theorem interNl_head? (l : Str) (lines : List Str) (h : l ≠ []) :
    (interNl (l :: lines)).head? = l.head? := by
  cases lines with
  | nil => rfl
  | cons l2 rest =>
    rw [interNl_cons_cons, List.head?_append, head?_eq_headI l h]
    rfl

theorem interNl_getLast? (lines : List Str) (l : Str) (h : l ≠ []) :
    (interNl (lines ++ [l])).getLast? = l.getLast? := by
  induction lines with
  | nil => rfl
  | cons a rest ih =>
    have hcons : ∃ x xs, rest ++ [l] = x :: xs := by
      cases rest with
      | nil => exact ⟨l, [], rfl⟩
      | cons y ys => exact ⟨y, ys ++ [l], by simp⟩
    obtain ⟨x, xs, hx⟩ := hcons
    rw [List.cons_append, hx, interNl_cons_cons, ← hx, List.getLast?_append]
    have hsome : ∃ c, (interNl (rest ++ [l])).getLast? = some c := by
      rw [ih]
      exact ⟨l.reverse.headI, getLast?_eq_reverse_headI l h⟩
    obtain ⟨c, hc⟩ := hsome
    have : (nlChar :: interNl (rest ++ [l])).getLast? = some c := by
      rw [show nlChar :: interNl (rest ++ [l]) = [nlChar] ++ interNl (rest ++ [l]) from rfl,
        List.getLast?_append, hc]
      rfl
    rw [this]
    show some c = l.getLast?
    rw [← ih, hc]

theorem splitChar_of_not_mem (c : Char) (l : Str) (h : c ∉ l) :
    splitChar c l = [l] := by
  induction l with
  | nil => rfl
  | cons a t ih =>
    have ha : ¬ (a = c) := fun hac => h (hac ▸ List.mem_cons_self a t)
    have ht : c ∉ t := fun hm => h (List.mem_cons_of_mem a hm)
    rw [splitChar, if_neg ha, ih ht]

theorem splitChar_append_cons (c : Char) (l r : Str) (h : c ∉ l) :
    splitChar c (l ++ c :: r) = l :: splitChar c r := by
  induction l with
  | nil => simp [splitChar]
  | cons a t ih =>
    have ha : ¬ (a = c) := fun hac => h (hac ▸ List.mem_cons_self a t)
    have ht : c ∉ t := fun hm => h (List.mem_cons_of_mem a hm)
    rw [List.cons_append, splitChar, if_neg ha, ih ht]

theorem splitChar_interNl (lines : List Str) (hne : lines ≠ [])
    (h : ∀ l ∈ lines, nlChar ∉ l) :
    splitChar nlChar (interNl lines) = lines := by
  induction lines with
  | nil => exact absurd rfl hne
  | cons l rest ih =>
    cases rest with
    | nil => exact splitChar_of_not_mem _ _ (h l (List.mem_cons_self l []))
    | cons l2 rest' =>
      rw [interNl_cons_cons,
        splitChar_append_cons _ _ _ (h l (List.mem_cons_self _ _)),
        ih (by simp) (fun x hx => h x (List.mem_cons_of_mem l hx))]

/-! ### Per-line parsing lemmas -/

theorem parseLine_lineOf (e : FMEntry) (h : goodEntryB e = true) :
    parseLine (lineOf e) = .ok e := by
  match e with
  | none => rfl
  | some (k, none) => simp [goodEntryB] at h
  | some (k, some v) =>
    have hk : breakSub colonSp k = none := by
      simp only [goodEntryB, Bool.and_eq_true, Option.isNone_iff_eq_none] at h
      exact h.2
    rw [parseLine, lineOf, pySplit1, breakSub_colonSp_key k v hk]

theorem parseLines_map_lineOf (fm : List FMEntry)
    (h : ∀ e ∈ fm, goodEntryB e = true) :
    parseLines (fm.map lineOf) = .ok fm := by
  induction fm with
  | nil => rfl
  | cons e rest ih =>
    rw [List.map_cons, parseLines,
      parseLine_lineOf e (h e (List.mem_cons_self e rest)),
      ih (fun x hx => h x (List.mem_cons_of_mem e hx))]

theorem lineOf_goodLineP (e : FMEntry) (h : goodEntryB e = true) :
    goodLineP (lineOf e) := by
  match e with
  | none => exact ⟨List.not_mem_nil nlChar, by simp [lineOf, fmSepStr]⟩
  | some (k, none) => simp [goodEntryB] at h
  | some (k, some v) =>
    simp only [goodEntryB, Bool.and_eq_true, decide_eq_true_eq] at h
    constructor
    · rw [lineOf]
      intro hm
      rcases List.mem_append.mp hm with hm1 | hm2
      · rcases List.mem_append.mp hm1 with hk | hc
        · exact h.1.1 hk
        · simp [colonSp] at hc
          rcases hc with h1 | h1 <;> exact absurd h1 (by decide)
      · exact h.1.2 hm2
    · rw [lineOf]
      intro hbad
      have : ':' ∈ fmSepStr := by
        rw [← hbad]
        exact List.mem_append.mpr (Or.inl (List.mem_append.mpr (Or.inr (by simp [colonSp]))))
      simp [fmSepStr] at this

/-- Core round-trip: parsing a serialized entry recovers the front
matter and body, for non-empty front matter of good elements whose
first and last elements are pairs with non-whitespace boundary
characters. -/
theorem roundtrip_core (fm : List FMEntry) (body : Str)
    (h1 : fm ≠ [])
    (h2 : ∀ e ∈ fm, goodEntryB e = true)
    (h3 : entryHeadOK fm.headI = true)
    (h4 : entryLastOK (fm.getLastD none) = true) :
    get_front_matter (serializeEntry fm body) = .ok fm ∧
    get_entry_text (serializeEntry fm body) = body := by
  have hg : ∀ l ∈ fm.map lineOf, goodLineP l := by
    intro l hl
    obtain ⟨e, he, rfl⟩ := List.mem_map.mp hl
    exact lineOf_goodLineP e (h2 e he)
  have hbrk := breakSub_serializeEntry fm body h1 hg
  have hlines : fm.map lineOf ≠ [] := by
    cases fm with
    | nil => exact absurd rfl h1
    | cons e rest => simp
  have hnl : ∀ l ∈ fm.map lineOf, nlChar ∉ l := fun l hl => (hg l hl).1
  -- the first line starts with a non-whitespace character
  obtain ⟨e1, rest1, rfl⟩ : ∃ e1 rest1, fm = e1 :: rest1 := by
    cases fm with
    | nil => exact absurd rfl h1
    | cons e r => exact ⟨e, r, rfl⟩
  have hhead : ∀ c, (interNl ((e1 :: rest1).map lineOf)).head? = some c →
      pyIsSpace c = false := by
    intro c hc
    match e1, h3 with
    | some (k, some v), h3 =>
      have hline : lineOf (some (k, some v)) ≠ [] := by
        rw [lineOf]
        cases k with
        | nil => simp [colonSp]
        | cons a t => simp
      rw [List.map_cons, interNl_head? _ _ hline,
        head?_eq_headI _ hline] at hc
      have hI : (lineOf (some (k, some v))).headI = (k ++ colonSp ++ v).headI := rfl
      rw [hI] at hc
      simp only [entryHeadOK, List.headI] at h3
      cases hc
      exact Bool.not_eq_true' .. |>.mp h3
  -- the last line ends with a non-whitespace character
  have hlast : ∀ c, (interNl ((e1 :: rest1).map lineOf)).getLast? = some c →
      pyIsSpace c = false := by
    intro c hc
    obtain ⟨fmInit, eL, hfm⟩ : ∃ init eL, e1 :: rest1 = init ++ [eL] := by
      rcases List.eq_nil_or_concat (e1 :: rest1) with hnil | ⟨ini, b, hcat⟩
      · cases hnil
      · exact ⟨ini, b, by simpa [List.concat_eq_append] using hcat⟩
    have hLD : (e1 :: rest1).getLastD none = eL := by
      rw [hfm, List.getLastD_eq_getLast?, List.getLast?_concat]
      rfl
    rw [hLD] at h4
    match eL, h4 with
    | some (k, some v), h4 =>
      have hline : lineOf (some (k, some v)) ≠ [] := by
        rw [lineOf]
        cases k with
        | nil => simp [colonSp]
        | cons a t => simp
      rw [hfm, List.map_append, List.map_cons, List.map_nil] at hc
      rw [interNl_getLast? _ _ hline, getLast?_eq_reverse_headI _ hline] at hc
      have hI : (lineOf (some (k, some v))).reverse.headI =
          (k ++ colonSp ++ v).reverse.headI := rfl
      rw [hI] at hc
      simp only [entryLastOK] at h4
      cases hc
      exact Bool.not_eq_true' .. |>.mp h4
  constructor
  · rw [get_front_matter, fmRegion, hbrk]
    show parseLines (splitChar nlChar (pyStrip
      (List.drop 4 (fmSepStr ++ nlChar :: interNl ((e1 :: rest1).map lineOf))))) =
      Except.ok (e1 :: rest1)
    rw [show fmSepStr ++ nlChar :: interNl ((e1 :: rest1).map lineOf) =
        (fmSepStr ++ [nlChar]) ++ interNl ((e1 :: rest1).map lineOf) from by simp,
      List.drop_left' (by rfl),
      pyStrip_eq_self _ hhead hlast,
      splitChar_interNl _ hlines hnl,
      parseLines_map_lineOf _ h2]
  · rw [get_entry_text, hbrk]

/-! ### Totality of `get_front_matter` -/

theorem pySplit1_cases (pat s : Str) :
    (∃ a b, pySplit1 pat s = [a, b]) ∨ pySplit1 pat s = [s] := by
  rw [pySplit1]
  cases breakSub pat s with
  | none => exact Or.inr rfl
  | some p => exact Or.inl ⟨p.1, p.2, rfl⟩

theorem parseLine_isOk (l : Str) : ∃ r, parseLine l = .ok r := by
  rw [parseLine]
  rcases pySplit1_cases colonSp l with ⟨a, b, hab⟩ | hs
  · rw [hab]
    exact ⟨some (a, some b), rfl⟩
  · rw [hs]
    by_cases hl : l = []
    · subst hl
      exact ⟨none, rfl⟩
    · refine ⟨some (l, none), ?_⟩
      simp [hl]

theorem parseLines_isOk (ls : List Str) : ∃ fms, parseLines ls = .ok fms := by
  induction ls with
  | nil => exact ⟨[], rfl⟩
  | cons l rest ih =>
    obtain ⟨r, hr⟩ := parseLine_isOk l
    obtain ⟨fms, hfms⟩ := ih
    exact ⟨r :: fms, by rw [parseLines, hr, hfms]⟩

/-! ### Claim C1: front-matter round trip -/

/-- Claim C1, counterexample: the claim asserts that re-parsing
`serialize(fm, body)` returns `(fm, body)` for every front-matter list,
blank-line markers preserved positionally and absent values included.
It fails for a trailing blank-line marker: the `strip()` in
`get_front_matter` deletes the blank line, so parsing
`serialize([title: x, blank], "b\n")` returns only the pair. -/
theorem c1_roundtrip_counterexample :
    get_front_matter (serializeEntry
        [some (['t', 'i', 't', 'l', 'e'], some ['x']), none] ['b', '\n']) ≠
      .ok [some (['t', 'i', 't', 'l', 'e'], some ['x']), none] := by
  decide

/-- Claim C1 (amended): for non-empty front matter whose elements are
blank-line markers or pairs with present values (keys and values
newline-free, keys free of the `": "` separator), whose first and last
elements are pairs whose serialized lines start and end with
non-whitespace characters, parsing `serialize(fm, body)` returns exactly
`(fm, body)`: interior blank-line markers are preserved positionally.
(Leading/trailing blank markers are eaten by `strip()`, and a pair with
an absent value re-parses as the literal value `"None"`, which is what
the counterexample forces the amendment to exclude.) -/
theorem c1_roundtrip_amended (fm : List FMEntry) (body : Str)
    (h1 : fm ≠ [])
    (h2 : fm.all goodEntryB = true)
    (h3 : entryHeadOK fm.headI = true)
    (h4 : entryLastOK (fm.getLastD none) = true) :
    get_front_matter (serializeEntry fm body) = .ok fm ∧
    get_entry_text (serializeEntry fm body) = body :=
  roundtrip_core fm body h1 (List.all_eq_true.mp h2) h3 h4

/-- Claim C1, witness: the amended round trip at a concrete entry with
an interior blank-line marker. -/
theorem c1_roundtrip_witness :
    get_front_matter (serializeEntry
        [some (['t', 'i', 't', 'l', 'e'], some ['x']), none,
          some (['d', 'a', 't', 'e'], some ['D'])] ['b', '\n']) =
      .ok [some (['t', 'i', 't', 'l', 'e'], some ['x']), none,
          some (['d', 'a', 't', 'e'], some ['D'])] ∧
    get_entry_text (serializeEntry
        [some (['t', 'i', 't', 'l', 'e'], some ['x']), none,
          some (['d', 'a', 't', 'e'], some ['D'])] ['b', '\n']) = ['b', '\n'] :=
  c1_roundtrip_amended _ _ (by decide) (by decide) (by decide) (by decide)

/-! ### Claim C9: split safety -/

/-- Claim C9: splitting a front-matter line on the first `": "` yields
at most 2 parts, and consequently the more-than-2-parts corruption
branch (and the unknown-error branch) of `get_front_matter` is
unreachable: parsing never returns an error, whatever the input
text. -/
theorem c9_split_safety (line text : Str) :
    (pySplit1 colonSp line).length ≤ 2 ∧
    ∃ fm, get_front_matter text = .ok fm := by
  constructor
  · rcases pySplit1_cases colonSp line with ⟨a, b, hab⟩ | hs
    · rw [hab]; exact Nat.le_refl 2
    · rw [hs]; exact Nat.le_succ 1
  · exact parseLines_isOk _

/-! ### Lexicographic-order lemmas for the matchers -/

theorem char_toNat_inj (c d : Char) (h : c.toNat = d.toNat) : c = d :=
  Char.eq_of_val_eq (UInt32.ext h)

theorem pyLe_total (a b : Str) : (pyLe a b || pyLe b a) = true := by
  induction a generalizing b with
  | nil => simp [pyLe]
  | cons c s ih =>
    cases b with
    | nil => simp [pyLe]
    | cons d t =>
      by_cases hcd : c = d
      · subst hcd
        simpa [pyLe] using ih t
      · have hn : c.toNat ≠ d.toNat := fun h => hcd (char_toNat_inj c d h)
        have : c.toNat < d.toNat ∨ d.toNat < c.toNat := by omega
        rcases this with h | h <;>
          simp [pyLe, hcd, Ne.symm hcd, h, Nat.not_lt_of_lt h]

theorem pyLe_trans (a b c : Str) (h1 : pyLe a b = true) (h2 : pyLe b c = true) :
    pyLe a c = true := by
  induction a generalizing b c with
  | nil => simp [pyLe]
  | cons x s ih =>
    cases b with
    | nil => simp [pyLe] at h1
    | cons y t =>
      cases c with
      | nil => simp [pyLe] at h2
      | cons z u =>
        by_cases hxy : x = y
        · subst hxy
          by_cases hyz : x = z
          · subst hyz
            rw [pyLe, if_pos rfl] at h1 h2 ⊢
            exact ih t u h1 h2
          · rw [pyLe, if_neg hyz] at h2 ⊢
            exact h2
        · rw [pyLe, if_neg hxy] at h1
          by_cases hyz : y = z
          · subst hyz
            rw [pyLe, if_neg hxy]
            exact h1
          · rw [pyLe, if_neg hyz] at h2
            by_cases hxz : x = z
            · subst hxz
              simp only [decide_eq_true_eq] at h1 h2
              omega
            · rw [pyLe, if_neg hxz]
              simp only [decide_eq_true_eq] at h1 h2 ⊢
              omega

theorem pyLe_antisymm (a b : Str) (h1 : pyLe a b = true) (h2 : pyLe b a = true) :
    a = b := by
  induction a generalizing b with
  | nil =>
    cases b with
    | nil => rfl
    | cons d t => simp [pyLe] at h2
  | cons c s ih =>
    cases b with
    | nil => simp [pyLe] at h1
    | cons d t =>
      by_cases hcd : c = d
      · subst hcd
        rw [pyLe, if_pos rfl] at h1 h2
        rw [ih t h1 h2]
      · rw [pyLe, if_neg hcd] at h1
        rw [pyLe, if_neg (Ne.symm hcd)] at h2
        simp only [decide_eq_true_eq] at h1 h2
        omega

/-- The sorted output of both matchers: descending, and strictly
descending on duplicate-free input. -/
theorem descList_pairwise (ms : List Str) :
    (if ms.isEmpty then [] else sortDesc ms).Pairwise
      (fun a b => pyLe b a = true) ∧
    (ms.Nodup →
      (if ms.isEmpty then [] else sortDesc ms).Pairwise
        (fun a b => pyLe b a = true ∧ a ≠ b)) := by
  by_cases he : ms.isEmpty
  · simp [he]
  · have hsorted : (sortDesc ms).Pairwise (fun a b => pyLe b a = true) :=
      List.sorted_mergeSort
        (fun a b c h1 h2 => pyLe_trans c b a h2 h1)
        (fun a b => pyLe_total b a) ms
    refine ⟨by simp [he, hsorted], fun hnd => ?_⟩
    have hnodup : (sortDesc ms).Nodup :=
      (List.mergeSort_perm ms _).nodup_iff.mpr hnd
    simp only [he, if_false]
    exact hsorted.and hnodup

/-! ### Claim C2: name matching -/

/-- Claim C2: an entry is returned by `find_entries` iff it is one of
the listed entries and every keyword is a literal substring of its
name; the empty keyword list matches every entry; and when no entry
qualifies the result is the empty list. -/
theorem c2_match_by_name (entries keywords : List Str) (e : Str) :
    (e ∈ find_entries entries keywords ↔
      e ∈ entries ∧ ∀ w ∈ keywords, containsSub w e = true) ∧
    (∀ x ∈ entries, x ∈ find_entries entries []) ∧
    ((∀ x ∈ entries, ¬ ∀ w ∈ keywords, containsSub w x = true) →
      find_entries entries keywords = []) := by
  have hmem : ∀ (ks : List Str) (x : Str),
      x ∈ find_entries entries ks ↔
        x ∈ entries ∧ ∀ w ∈ ks, containsSub w x = true := by
    intro ks x
    rw [find_entries]
    by_cases he : (entries.filter (fun y => ks.all (fun w => containsSub w y))).isEmpty
    · simp only [he, if_true]
      have := List.isEmpty_iff.mp he
      rw [List.filter_eq_nil_iff] at this
      simp only [List.not_mem_nil, false_iff]
      intro ⟨hx, hall⟩
      exact this x hx (by simpa using List.all_eq_true.mpr hall)
    · rw [if_neg he]
      simp only [sortDesc, List.mem_mergeSort, List.mem_filter,
        List.all_eq_true]
  refine ⟨hmem keywords e, ?_, ?_⟩
  · intro x hx
    exact (hmem [] x).mpr ⟨hx, by simp⟩
  · intro hnone
    rw [find_entries]
    have : entries.filter (fun y => keywords.all (fun w => containsSub w y)) = [] := by
      rw [List.filter_eq_nil_iff]
      intro x hx hall
      exact hnone x hx (List.all_eq_true.mp (by simpa using hall))
    simp [this]

/-- Claim C2, witness: a keyword matched by no listed entry gives the
empty result. -/
theorem c2_match_by_name_witness :
    find_entries [['a', 'b'], ['c']] [['z']] = [] :=
  (c2_match_by_name [['a', 'b'], ['c']] [['z']] ['a', 'b']).2.2 (by decide)

/-! ### Claim C7: sort order of both matchers -/

/-- Claim C7, counterexample: the claim asserts strictly descending
order for every list of entries, but `get_entries` can hand
`find_entries` duplicate names (distinct files, same stem), and
duplicates survive filtering and sorting: on entries `["a", "a"]` with
no keywords the result `["a", "a"]` is not strictly descending. -/
theorem c7_sort_order_counterexample :
    ¬ (find_entries [['a'], ['a']] []).Pairwise
        (fun a b => pyLe b a = true ∧ a ≠ b) := by
  intro h
  have hnodup : (find_entries [['a'], ['a']] []).Nodup :=
    h.imp (fun hab => hab.2)
  have hshape : find_entries [['a'], ['a']] [] = sortDesc [['a'], ['a']] := rfl
  rw [hshape] at hnodup
  have hdup : ([['a'], ['a']] : List Str).Nodup :=
    (List.mergeSort_perm [['a'], ['a']] (fun a b => pyLe b a)).nodup_iff.mp hnodup
  simp at hdup

/-- Claim C7 (amended): the results of both `find_entries` and
`search_entries` are in descending lexicographic order by name, and
strictly descending whenever the input entry names are pairwise
distinct. -/
theorem c7_sort_order (entries keywords : List Str) (textOf : Str → Str) :
    (find_entries entries keywords).Pairwise (fun a b => pyLe b a = true) ∧
    (search_entries entries textOf keywords).Pairwise (fun a b => pyLe b a = true) ∧
    (entries.Nodup →
      (find_entries entries keywords).Pairwise
        (fun a b => pyLe b a = true ∧ a ≠ b) ∧
      (search_entries entries textOf keywords).Pairwise
        (fun a b => pyLe b a = true ∧ a ≠ b)) := by
  have hf := descList_pairwise
    (entries.filter (fun e => keywords.all (fun w => containsSub w e)))
  have hs := descList_pairwise
    (entries.filter
      (fun e => keywords.all (fun w => containsSub (pyLower w) (pyLower (textOf e)))))
  refine ⟨hf.1, hs.1, fun hnd => ⟨hf.2 (hnd.filter _), hs.2 (hnd.filter _)⟩⟩

/-- Claim C7, witness: strict descending order on distinct entries. -/
theorem c7_sort_order_witness :
    (find_entries [['b'], ['a']] []).Pairwise
      (fun a b => pyLe b a = true ∧ a ≠ b) :=
  ((c7_sort_order [['b'], ['a']] [] (fun _ => [])).2.2 (by decide)).1

/-! ### Claim C8: entry listing -/

/-- Stripping the `.md` extension: `os.path.splitext` removes the final
`.md` from `stem ++ ".md"` whenever the stem has at least one non-dot
character. -/
theorem pySplitextRoot_md (stem : Str) (h : stem.any (fun c => !(c = '.')) = true) :
    pySplitextRoot (stem ++ ['.', 'm', 'd']) = stem := by
  have hrev : (stem ++ ['.', 'm', 'd']).reverse = 'd' :: 'm' :: '.' :: stem.reverse := by
    simp
  have htake : List.takeWhile (fun c => !(c = '.'))
      ('d' :: 'm' :: '.' :: stem.reverse) = ['d', 'm'] := by
    rw [List.takeWhile_cons, if_pos (by decide), List.takeWhile_cons,
      if_pos (by decide), List.takeWhile_cons, if_neg (by decide)]
  have hall : stem.all (fun c => c = '.') = false := by
    rw [Bool.eq_false_iff]
    intro hall
    rcases List.any_eq_true.mp h with ⟨c, hc, hcd⟩
    have := List.all_eq_true.mp hall c hc
    simp only [decide_eq_true_eq] at this
    rw [this] at hcd
    simp at hcd
  rw [pySplitextRoot, hrev, htake]
  have hlen : ¬ (List.length ['d', 'm'] =
      ('d' :: 'm' :: '.' :: stem.reverse).length) := by
    simp
  rw [if_neg hlen]
  have hdrop : ('d' :: 'm' :: '.' :: stem.reverse).drop
      (List.length ['d', 'm'] + 1) = stem.reverse := rfl
  rw [hdrop, List.reverse_reverse]
  show (if (stem.all fun c => decide (c = '.')) = true then
    stem ++ ['.', 'm', 'd'] else stem) = stem
  rw [hall]
  simp

/-- Claim C8, counterexample: the claim says files not carrying the
`.md` extension are ignored, so a directory holding only `a.txt` should
list no entries; `get_entries` instead strips the `.txt` extension too
and lists `a`. -/
theorem c8_entry_listing_counterexample :
    get_entries [['a', '.', 't', 'x', 't']] ≠ [] ∧
    get_entries [['a', '.', 't', 'x', 't']] = [['a']] := by
  decide

/-- Claim C8 (amended): `get_entries` strips the final-dot extension
from every listed file via `os.path.splitext`, whatever the extension:
a file `stem.md` (stem containing a non-dot character) contributes
`stem`, but files with other extensions are not ignored — they
contribute their stems as well. -/
theorem c8_entry_listing (files : List Str) (stem : Str)
    (h : stem.any (fun c => !(c = '.')) = true) :
    get_entries files = files.map pySplitextRoot ∧
    pySplitextRoot (stem ++ ['.', 'm', 'd']) = stem ∧
    ((stem ++ ['.', 'm', 'd']) ∈ files → stem ∈ get_entries files) ∧
    (∀ f ∈ files, pySplitextRoot f ∈ get_entries files) := by
  refine ⟨rfl, pySplitextRoot_md stem h, ?_, ?_⟩
  · intro hf
    rw [get_entries, ← pySplitextRoot_md stem h]
    exact List.mem_map_of_mem pySplitextRoot hf
  · intro f hf
    exact List.mem_map_of_mem pySplitextRoot hf

/-- Claim C8, witness: an `.md` file contributes its stem. -/
theorem c8_entry_listing_witness :
    ['a'] ∈ get_entries [['a', '.', 'm', 'd'], ['b', '.', 't', 'x', 't']] :=
  (c8_entry_listing [['a', '.', 'm', 'd'], ['b', '.', 't', 'x', 't']] ['a']
    (by decide)).2.2.1 (by decide)

/-! ### Claim C4: the interactive chooser -/

/-- Claim C4: with exactly one option the chooser returns index 0
without showing the prompt; with at least two options: end-of-input,
an interrupt, an explicit end-of-file, a blank line, `q` and `quit`
all cancel with -1; a token that is not an integer, or an integer
outside `[1, N]`, re-prompts with the state unchanged; and an integer
`k` in `[1, N]` resolves to `k - 1`. -/
theorem c4_interactive_resolver (options : List Str) (ins rest : List InEv)
    (s : Str) :
    (options.length = 1 → interactive_number_chooser options ins = (0, false)) ∧
    (2 ≤ options.length → (
      interactive_number_chooser options [] = (-1, true) ∧
      interactive_number_chooser options (.intr :: rest) = (-1, true) ∧
      interactive_number_chooser options (.eofEv :: rest) = (-1, true) ∧
      ((s = [] ∨ s = qStr ∨ s = quitStr) →
        interactive_number_chooser options (.line s :: rest) = (-1, true)) ∧
      (pyParseInt s = none → s ≠ [] → s ≠ qStr → s ≠ quitStr →
        interactive_number_chooser options (.line s :: rest) =
          interactive_number_chooser options rest) ∧
      (∀ k : Int, pyParseInt s = some k →
        ¬ (1 ≤ k ∧ k ≤ (options.length : Int)) →
        interactive_number_chooser options (.line s :: rest) =
          interactive_number_chooser options rest) ∧
      (∀ k : Int, pyParseInt s = some k → 1 ≤ k → k ≤ (options.length : Int) →
        interactive_number_chooser options (.line s :: rest) = (k - 1, true)))) := by
  constructor
  · intro h1
    rw [interactive_number_chooser, if_pos h1]
  · intro h2
    have hn : ¬ (options.length = 1) := by omega
    refine ⟨?_, ?_, ?_, ?_, ?_, ?_, ?_⟩
    · rw [interactive_number_chooser, if_neg hn]; rfl
    · rw [interactive_number_chooser, if_neg hn]; rfl
    · rw [interactive_number_chooser, if_neg hn]; rfl
    · intro hs
      rw [interactive_number_chooser, if_neg hn, chooser_loop]
      rcases hs with hs | hs | hs <;> subst hs <;> simp
    · intro hp hs1 hs2 hs3
      rw [interactive_number_chooser, if_neg hn,
        interactive_number_chooser, if_neg hn, chooser_loop,
        if_neg (by simp [hs1, hs2, hs3]), hp]
    · intro k hk hrange
      have hs1 : s ≠ [] := by
        intro hs; subst hs; rw [show pyParseInt [] = none from rfl] at hk; cases hk
      have hs2 : s ≠ qStr := by
        intro hs; subst hs
        rw [show pyParseInt qStr = none from rfl] at hk; cases hk
      have hs3 : s ≠ quitStr := by
        intro hs; subst hs
        rw [show pyParseInt quitStr = none from rfl] at hk; cases hk
      rw [interactive_number_chooser, if_neg hn,
        interactive_number_chooser, if_neg hn, chooser_loop,
        if_neg (by simp [hs1, hs2, hs3]), hk]
      show (if 0 ≤ k - 1 ∧ k - 1 < (options.length : Int) then k - 1
        else chooser_loop options.length rest, true) =
        (chooser_loop options.length rest, true)
      rw [if_neg (by omega)]
    · intro k hk hk1 hk2
      have hs1 : s ≠ [] := by
        intro hs; subst hs; rw [show pyParseInt [] = none from rfl] at hk; cases hk
      have hs2 : s ≠ qStr := by
        intro hs; subst hs
        rw [show pyParseInt qStr = none from rfl] at hk; cases hk
      have hs3 : s ≠ quitStr := by
        intro hs; subst hs
        rw [show pyParseInt quitStr = none from rfl] at hk; cases hk
      rw [interactive_number_chooser, if_neg hn, chooser_loop,
        if_neg (by simp [hs1, hs2, hs3]), hk]
      show (if 0 ≤ k - 1 ∧ k - 1 < (options.length : Int) then k - 1
        else chooser_loop options.length rest, true) = (k - 1, true)
      rw [if_pos (by omega)]

/-- Claim C4, witness: single-option auto-resolution, cancellation on
`q`, skipping a non-integer and an out-of-range answer, and resolving
`2` to index 1 on a two-option list. -/
theorem c4_interactive_resolver_witness :
    interactive_number_chooser [['a']] [] = (0, false) ∧
    interactive_number_chooser [['a'], ['b']] [.line ['q']] = (-1, true) ∧
    interactive_number_chooser [['a'], ['b']] [.line ['x'], .line ['2']] =
      interactive_number_chooser [['a'], ['b']] [.line ['2']] ∧
    interactive_number_chooser [['a'], ['b']] [.line ['3'], .line ['2']] =
      interactive_number_chooser [['a'], ['b']] [.line ['2']] ∧
    interactive_number_chooser [['a'], ['b']] [.line ['2']] = (1, true) :=
  ⟨(c4_interactive_resolver [['a']] [] [] []).1 rfl,
   ((c4_interactive_resolver [['a'], ['b']] [] [] ['q']).2 (by decide)).2.2.2.1
     (Or.inr (Or.inl rfl)),
   ((c4_interactive_resolver [['a'], ['b']] [] [.line ['2']] ['x']).2
     (by decide)).2.2.2.2.1 (by decide) (by decide) (by decide) (by decide),
   ((c4_interactive_resolver [['a'], ['b']] [] [.line ['2']] ['3']).2
     (by decide)).2.2.2.2.2.1 3 (by decide) (by decide),
   ((c4_interactive_resolver [['a'], ['b']] [] [] ['2']).2
     (by decide)).2.2.2.2.2.2 2 (by decide) (by decide) (by decide)⟩

/-! ### Claim C3: safe edit session -/

/-- Claim C3, counterexample: `edit_entry` compares the files with
`filecmp.cmp` at its default `shallow=True`, not byte-for-byte.  When
the scratch file ends up with the same size and mtime as the original
but different bytes, the comparison reports them equal, the scratch
file is not moved over the original, and the claim's
differing-bytes branch fails. -/
theorem c3_safe_edit_counterexample :
    (⟨['c', 'd'], 5⟩ : PyFile).content ≠ (⟨['a', 'b'], 5⟩ : PyFile).content ∧
    edit_entry ⟨['a', 'b'], 5⟩ ⟨['c', 'd'], 5⟩ = (⟨['a', 'b'], 5⟩, false) := by
  decide

/-- Claim C3 (amended): if the scratch file's bytes equal the
original's, the original is untouched and no timestamp prompt is
offered — unconditionally.  If the bytes differ, the original ends up
with the scratch file's bytes and the prompt is offered, provided the
shallow comparison can see the change: the two files differ in size or
in mtime.  (Equal size and mtime with different bytes is the
`shallow=True` blind spot shown by the counterexample.) -/
theorem c3_safe_edit (orig postEdit : PyFile) :
    (postEdit.content = orig.content → edit_entry orig postEdit = (orig, false)) ∧
    (postEdit.content ≠ orig.content →
      (postEdit.mtime ≠ orig.mtime ∨
        postEdit.content.length ≠ orig.content.length) →
      edit_entry orig postEdit = (postEdit, true)) := by
  constructor
  · intro heq
    have hc : cmpShallow orig postEdit = true := by
      rw [cmpShallow]
      by_cases hm : orig.content.length = postEdit.content.length ∧
        orig.mtime = postEdit.mtime
      · rw [if_pos hm]
      · rw [if_neg hm, if_pos (by rw [heq])]
        simp [heq]
    rw [edit_entry, if_pos hc]
  · intro hne hsig
    have hc : cmpShallow orig postEdit = false := by
      rw [cmpShallow]
      rcases hsig with hm | hl
      · by_cases hlen : orig.content.length = postEdit.content.length
        · rw [if_neg (fun hand => hm hand.2.symm), if_pos hlen]
          simp [Ne.symm hne]
        · rw [if_neg (fun hand => hlen hand.1), if_neg hlen]
      · rw [if_neg (fun hand => hl hand.1.symm), if_neg (fun h => hl h.symm)]
    rw [edit_entry, if_neg (by rw [hc]; exact Bool.false_ne_true)]

/-- Claim C3, witness: an unchanged scratch file leaves the original
alone; a changed and resized scratch file replaces it and triggers the
prompt. -/
theorem c3_safe_edit_witness :
    edit_entry ⟨['a'], 1⟩ ⟨['a'], 2⟩ = (⟨['a'], 1⟩, false) ∧
    edit_entry ⟨['a'], 1⟩ ⟨['b', 'c'], 2⟩ = (⟨['b', 'c'], 2⟩, true) :=
  ⟨(c3_safe_edit ⟨['a'], 1⟩ ⟨['a'], 2⟩).1 rfl,
   (c3_safe_edit ⟨['a'], 1⟩ ⟨['b', 'c'], 2⟩).2 (by decide) (by decide)⟩

/-! ### Evaluating `fix_entry` on well-formed entries -/

theorem updDate_none (e : FMEntry) : updDate none e = e := by
  match e with
  | none => rfl
  | some (k, v) =>
    rw [updDate]
    by_cases hk : k = dateKey
    · rw [if_pos hk]
    · rw [if_neg hk]

theorem fix_entry_date_some (slug : Str → Str) (entry : Str) (fm : List FMEntry)
    (body d t : Str)
    (h1 : fm ≠ []) (h2 : ∀ e ∈ fm, goodEntryB e = true)
    (h3 : entryHeadOK fm.headI = true) (h4 : entryLastOK (fm.getLastD none) = true)
    (ht : lastTitle fm = some (some t)) :
    fix_entry slug entry (serializeEntry fm body) (some d) =
      .ok ⟨serializeEntry (fm.map (updDate (some d))) body,
        if entry = d.takeWhile (fun c => !(c = ' ')) ++ '-' :: slug t
        then .ok (d.takeWhile (fun c => !(c = ' ')) ++ '-' :: slug t, false)
        else .ok (d.takeWhile (fun c => !(c = ' ')) ++ '-' :: slug t, true)⟩ := by
  obtain ⟨hfm, hbody⟩ := roundtrip_core fm body h1 h2 h3 h4
  unfold fix_entry
  rw [hfm]
  simp only [hbody, ht]

theorem fix_entry_date_none (slug : Str → Str) (entry : Str) (fm : List FMEntry)
    (body : Str)
    (h1 : fm ≠ []) (h2 : ∀ e ∈ fm, goodEntryB e = true)
    (h3 : entryHeadOK fm.headI = true) (h4 : entryLastOK (fm.getLastD none) = true) :
    fix_entry slug entry (serializeEntry fm body) none =
      .ok ⟨serializeEntry fm body, .error .attributeError⟩ := by
  obtain ⟨hfm, hbody⟩ := roundtrip_core fm body h1 h2 h3 h4
  have hid : fm.map (updDate none) = fm := by
    calc fm.map (updDate none) = fm.map id :=
          List.map_congr_left (fun e _ => updDate_none e)
      _ = fm := List.map_id fm
  unfold fix_entry
  rw [hfm]
  simp only [hbody, hid]

/-! ### Claim C5: the timestamp update's frame property -/

/-- Claim C5, counterexample: the claim says the entry's filename is
byte-identical before and after `update_time`, but `update_time` is
`fix_entry` with the current time, and `fix_entry` unconditionally
recomputes `date-part ++ "-" ++ slug(title)` and renames the file when
the entry name differs — which the fresh date part makes the normal
case.  Here entry `a` is renamed to `25-x` (the `true` flag is the
rename). -/
theorem c5_update_time_counterexample :
    update_time (fun _ => ['x']) ['a']
        (serializeEntry [some (['t', 'i', 't', 'l', 'e'], some ['x']),
          some (['d', 'a', 't', 'e'], some ['D'])] ['b'])
        ['2', '5', ' ', '7'] =
      .ok ⟨serializeEntry [some (['t', 'i', 't', 'l', 'e'], some ['x']),
          some (['d', 'a', 't', 'e'], some ['2', '5', ' ', '7'])] ['b'],
        .ok (['2', '5', '-', 'x'], true)⟩ ∧
    (['2', '5', '-', 'x'] : Str) ≠ ['a'] := by
  decide

/-- Claim C5 (amended): on a well-formed entry whose front matter has a
`title` pair, `update_time` writes back exactly the serialization of
the same front-matter list with only `date`-keyed pairs' values
replaced by the new time, over the same body — every other pair, every
interior blank-line marker, and the body are byte-identical.  The
filename, however, is preserved only when the entry name already equals
`date-part ++ "-" ++ slug(title)`; otherwise the file is renamed to
that name. -/
theorem c5_update_time_frame (slug : Str → Str) (entry : Str)
    (fm : List FMEntry) (body now t : Str)
    (h1 : fm ≠ []) (h2 : fm.all goodEntryB = true)
    (h3 : entryHeadOK fm.headI = true)
    (h4 : entryLastOK (fm.getLastD none) = true)
    (ht : lastTitle fm = some (some t)) :
    update_time slug entry (serializeEntry fm body) now =
      .ok ⟨serializeEntry (fm.map (updDate (some now))) body,
        if entry = now.takeWhile (fun c => !(c = ' ')) ++ '-' :: slug t
        then .ok (now.takeWhile (fun c => !(c = ' ')) ++ '-' :: slug t, false)
        else .ok (now.takeWhile (fun c => !(c = ' ')) ++ '-' :: slug t, true)⟩ ∧
    (∀ e ∈ fm, (∀ v, e ≠ some (dateKey, v)) → updDate (some now) e = e) ∧
    (∀ k v, k = dateKey → updDate (some now) (some (k, v)) = some (k, some now)) := by
  refine ⟨fix_entry_date_some slug entry fm body now t h1
    (List.all_eq_true.mp h2) h3 h4 ht, ?_, ?_⟩
  · intro e he hnd
    match e with
    | none => rfl
    | some (k, v) =>
      rw [updDate, if_neg (fun hk => hnd v (by rw [hk]))]
  · intro k v hk
    rw [updDate, if_pos hk]

/-- Claim C5, witness: a concrete timestamp update rewriting only the
`date` value and renaming the file. -/
theorem c5_update_time_frame_witness :
    update_time (fun _ => ['x']) ['2', '5', '-', 'x']
        (serializeEntry [some (['t', 'i', 't', 'l', 'e'], some ['x']),
          some (['d', 'a', 't', 'e'], some ['D'])] ['b'])
        ['2', '5', ' ', '7'] =
      .ok ⟨serializeEntry [some (['t', 'i', 't', 'l', 'e'], some ['x']),
          some (['d', 'a', 't', 'e'], some ['2', '5', ' ', '7'])] ['b'],
        .ok (['2', '5', '-', 'x'], false)⟩ := by
  have h := (c5_update_time_frame (fun _ => ['x']) ['2', '5', '-', 'x']
    [some (['t', 'i', 't', 'l', 'e'], some ['x']),
      some (['d', 'a', 't', 'e'], some ['D'])]
    ['b'] ['2', '5', ' ', '7'] ['x']
    (by decide) (by decide) (by decide) (by decide) (by decide)).1
  exact h.trans (by decide)

/-! ### Claim C6: missing required metadata -/

/-- Claim C6: the claim (and the spec's normative wording) requires
`fix_entry` to fail with a distinct missing-required-metadata error
when the front matter lacks a `title` or a `date` key.  The code does
not: with the `date` key absent (and a date argument supplied, as
`update_time` does), it completes and renames the file; with the
`title` key absent it raises a bare `NameError` at the slug
computation — after the entry file has already been rewritten — not a
distinct metadata error. -/
theorem c6_missing_metadata_code_behavior :
    fix_entry (fun _ => ['x']) ['a']
        (serializeEntry [some (['t', 'i', 't', 'l', 'e'], some ['x'])] ['b'])
        (some ['2', '0', '2', '6']) =
      .ok ⟨serializeEntry [some (['t', 'i', 't', 'l', 'e'], some ['x'])] ['b'],
        .ok (['2', '0', '2', '6', '-', 'x'], true)⟩ ∧
    fix_entry (fun _ => ['x']) ['a']
        (serializeEntry [some (['k'], some ['v'])] ['b'])
        (some ['2', '0', '2', '6']) =
      .ok ⟨serializeEntry [some (['k'], some ['v'])] ['b'], .error .nameError⟩ := by
  decide

/-! ### Claim C10: `fix_entry` requires a date -/

/-- Claim C10: with the default `date=None`, `fix_entry` first rewrites
the entry file (the `written` component) and only then raises
`AttributeError` dereferencing `None.split(" ")` — so the operation is
neither total nor atomic for that input; and it completes (reaching the
rename decision) exactly when a non-None date string is supplied, as
`update_time` supplies one. -/
theorem c10_fix_entry_date_none (slug : Str → Str) (entry : Str)
    (fm : List FMEntry) (body t : Str)
    (h1 : fm ≠ []) (h2 : fm.all goodEntryB = true)
    (h3 : entryHeadOK fm.headI = true)
    (h4 : entryLastOK (fm.getLastD none) = true)
    (ht : lastTitle fm = some (some t)) :
    fix_entry slug entry (serializeEntry fm body) none =
      .ok ⟨serializeEntry fm body, .error .attributeError⟩ ∧
    (∀ d : Str, ∃ nm : Str, ∃ rn : Bool,
      fix_entry slug entry (serializeEntry fm body) (some d) =
        .ok ⟨serializeEntry (fm.map (updDate (some d))) body, .ok (nm, rn)⟩) := by
  have h2' := List.all_eq_true.mp h2
  refine ⟨fix_entry_date_none slug entry fm body h1 h2' h3 h4, ?_⟩
  intro d
  by_cases he : entry = d.takeWhile (fun c => !(c = ' ')) ++ '-' :: slug t
  · exact ⟨_, false, by
      rw [fix_entry_date_some slug entry fm body d t h1 h2' h3 h4 ht, if_pos he]⟩
  · exact ⟨_, true, by
      rw [fix_entry_date_some slug entry fm body d t h1 h2' h3 h4 ht, if_neg he]⟩

/-- Claim C10, witness: the date-less call on a concrete entry rewrites
the file and then fails with `AttributeError`. -/
theorem c10_fix_entry_date_none_witness :
    fix_entry (fun _ => ['x']) ['a']
        (serializeEntry [some (['t', 'i', 't', 'l', 'e'], some ['x'])] ['b']) none =
      .ok ⟨serializeEntry [some (['t', 'i', 't', 'l', 'e'], some ['x'])] ['b'],
        .error .attributeError⟩ :=
  (c10_fix_entry_date_none (fun _ => ['x']) ['a']
    [some (['t', 'i', 't', 'l', 'e'], some ['x'])] ['b'] ['x']
    (by decide) (by decide) (by decide) (by decide) (by decide)).1
